import Mathlib

/-!
Verification development for the two quimb example notebooks
(`ex_2d.ipynb` and `ex_torch_optimize_pbc_mps.ipynb`).

The locally implemented code (the notebook function `ham_heis_2D` with its inner
generator `gen_pairs`, the observable grids `Sz_ij`/`m_ij`, and the pytorch
optimization loop) is embedded shallowly.  Calls into the external quimb /
pytorch libraries (`spin_operator`, `ikron`, `expec`, `eigh`, `groundstate`,
tensor contraction, `optim.Adam`) are modelled from the specification's
descriptions; each such definition carries a doc comment starting with
"Modelled from the spec".  Matrix entries live in the field of Gaussian
rationals (exact complex numbers with rational real and imaginary parts), and
real scalars of the source are modelled as rationals, so that everything is
computable.
-/

/-- Exact complex scalars: rational real and imaginary part. -/
structure GRat where
  re : ℚ
  im : ℚ
deriving DecidableEq

instance : Zero GRat := ⟨⟨0, 0⟩⟩

instance : One GRat := ⟨⟨1, 0⟩⟩

instance : Add GRat := ⟨fun a b => ⟨a.re + b.re, a.im + b.im⟩⟩

instance : Mul GRat := ⟨fun a b => ⟨a.re * b.re - a.im * b.im, a.re * b.im + a.im * b.re⟩⟩

instance : AddCommMonoid GRat where
  add_assoc a b c := by
    show GRat.mk (a.re + b.re + c.re) (a.im + b.im + c.im) =
      GRat.mk (a.re + (b.re + c.re)) (a.im + (b.im + c.im))
    congr 1 <;> ring
  zero_add a := by
    show GRat.mk (0 + a.re) (0 + a.im) = a
    rw [zero_add, zero_add]
  add_zero a := by
    show GRat.mk (a.re + 0) (a.im + 0) = a
    rw [add_zero, add_zero]
  add_comm a b := by
    show GRat.mk (a.re + b.re) (a.im + b.im) = GRat.mk (b.re + a.re) (b.im + a.im)
    congr 1 <;> ring
  nsmul := nsmulRec

instance : CommMonoid GRat where
  mul_assoc a b c := by
    show GRat.mk ((a.re * b.re - a.im * b.im) * c.re - (a.re * b.im + a.im * b.re) * c.im)
        ((a.re * b.re - a.im * b.im) * c.im + (a.re * b.im + a.im * b.re) * c.re) =
      GRat.mk (a.re * (b.re * c.re - b.im * c.im) - a.im * (b.re * c.im + b.im * c.re))
        (a.re * (b.re * c.im + b.im * c.re) + a.im * (b.re * c.re - b.im * c.im))
    congr 1 <;> ring
  one_mul a := by
    show GRat.mk (1 * a.re - 0 * a.im) (1 * a.im + 0 * a.re) = a
    rw [one_mul, one_mul, zero_mul, zero_mul, sub_zero, add_zero]
  mul_one a := by
    show GRat.mk (a.re * 1 - a.im * 0) (a.re * 0 + a.im * 1) = a
    rw [mul_one, mul_one, mul_zero, mul_zero, sub_zero, zero_add]
  mul_comm a b := by
    show GRat.mk (a.re * b.re - a.im * b.im) (a.re * b.im + a.im * b.re) =
      GRat.mk (b.re * a.re - b.im * a.im) (b.re * a.im + b.im * a.re)
    congr 1 <;> ring

/-- The embedding of a real (rational) scalar. -/
def GRat.ofRat (c : ℚ) : GRat := ⟨c, 0⟩

/-- Complex conjugation. -/
def GRat.conj (z : GRat) : GRat := ⟨z.re, -z.im⟩

/-- A spin configuration of the n-by-m lattice with local dimension 2:
this indexes the rows and columns of operators on the full Hilbert space,
whose dimension is 2^(n*m).  It models the nested `dims = [[2] * m] * n`
of the notebook. -/
abbrev Cfg (n m : ℕ) := Fin n × Fin m → Fin 2

/-- An operator on the full Hilbert space of the n-by-m lattice, as its matrix
of entries between spin configurations. -/
abbrev Op (n m : ℕ) := Cfg n m → Cfg n m → GRat

/-- Modelled from the spec: the external library call `spin_operator(s)`
(quimb is not part of this repository slice).  The spin-1/2 operators
S^x = [[0, 1/2], [1/2, 0]], S^y = [[0, -i/2], [i/2, 0]],
S^z = [[1/2, 0], [0, -1/2]], accepting upper- or lower-case direction labels
as the library does ('Z' is used in some notebook cells, 'xyz' in others). -/
def spin_operator (s : Char) : Fin 2 → Fin 2 → GRat := fun a b =>
  if s = 'x' ∨ s = 'X' then (if a = b then 0 else ⟨1/2, 0⟩)
  else if s = 'y' ∨ s = 'Y' then
    (if a.val = 0 ∧ b.val = 1 then ⟨0, -(1/2)⟩
     else if a.val = 1 ∧ b.val = 0 then ⟨0, 1/2⟩ else 0)
  else if s = 'z' ∨ s = 'Z' then
    (if a = b then (if a.val = 0 then ⟨1/2, 0⟩ else ⟨-(1/2), 0⟩) else 0)
  else 0

/-- Modelled from the spec: the external library call `ikron(op, dims, inds)`,
described in the glossary as "Kronecker/tensor product placement of a local
operator into a larger multi-site Hilbert space".  With `dims = [[2]*m]*n` it
places the single-site operator `op` at every lattice coordinate listed in
`inds` and the identity at every other site; the entry between configurations
`x` and `y` is the product over all lattice sites of the local factors. -/
def ikron {n m : ℕ} (op : Fin 2 → Fin 2 → GRat) (inds : List (ℕ × ℕ)) : Op n m := fun x y =>
  ∏ s : Fin n × Fin m,
    if ((s.1 : ℕ), (s.2 : ℕ)) ∈ inds then op (x s) (y s)
    else (if x s = y s then 1 else 0)

/-- The tuple of all site coordinates of `ham_heis_2D`:
`sites = tuple(itertools.product(range(n), range(m)))`, in row-major order. -/
def sites (n m : ℕ) : List (ℕ × ℕ) :=
  (List.range n).flatMap fun i => (List.range m).map fun j => (i, j)

/-- The inner generator `gen_pairs` of `ham_heis_2D` (ex_2d.ipynb): for every
site `(i, j)` it computes `above = (i + 1) % n` and `right = (j + 1) % m` and
yields the vertical pair `((i, j), (above, j))` unless `not cyclic` and
`above == 0`, then the horizontal pair `((i, j), (i, right))` unless
`not cyclic` and `right == 0`. -/
def genPairs (n m : ℕ) (cyclic : Bool) : List ((ℕ × ℕ) × (ℕ × ℕ)) :=
  (sites n m).flatMap fun ij =>
    (if cyclic = true ∨ (ij.1 + 1) % n ≠ 0
      then [((ij.1, ij.2), ((ij.1 + 1) % n, ij.2))] else []) ++
    (if cyclic = true ∨ (ij.2 + 1) % m ≠ 0
      then [((ij.1, ij.2), (ij.1, (ij.2 + 1) % m))] else [])

/-- `pairs_ss = tuple(itertools.product(gen_pairs(), 'xyz'))`. -/
def pairs_ss (n m : ℕ) (cyclic : Bool) : List (((ℕ × ℕ) × (ℕ × ℕ)) × Char) :=
  (genPairs n m cyclic).flatMap fun p => ['x', 'y', 'z'].map fun s => (p, s)

/-- The inner function `interactions(pair_s)` of `ham_heis_2D`:
`ikron(j * Sxyz, dims, inds=pair)`. -/
def interactions (n m : ℕ) (j : ℚ) (pair_s : ((ℕ × ℕ) × (ℕ × ℕ)) × Char) : Op n m :=
  ikron (fun a b => GRat.ofRat j * spin_operator pair_s.2 a b) [pair_s.1.1, pair_s.1.2]

/-- The inner function `fields(site)` of `ham_heis_2D`:
`ikron(bz * Sz, dims, inds=[site])`. -/
def fields (n m : ℕ) (bz : ℚ) (site : ℕ × ℕ) : Op n m :=
  ikron (fun a b => GRat.ofRat bz * spin_operator 'z' a b) [site]

/-- `all_terms = itertools.chain(map(interactions, pairs_ss), map(fields, sites) if bz != 0.0 else ())`. -/
def allTerms (n m : ℕ) (j bz : ℚ) (cyclic : Bool) : List (Op n m) :=
  (pairs_ss n m cyclic).map (interactions n m j) ++
    (if bz ≠ 0 then (sites n m).map (fields n m bz) else [])

/-- `H = sum(all_terms)` of `ham_heis_2D`, before the `isreal` branch. -/
def hamRaw (n m : ℕ) (j bz : ℚ) (cyclic : Bool) : Op n m :=
  (allTerms n m j bz cyclic).sum

/-- Modelled from the spec: the external library predicate `isreal(H)` --
every entry has vanishing imaginary part. -/
def isrealOp {n m : ℕ} (H : Op n m) : Prop := ∀ x y, (H x y).im = 0

instance {n m : ℕ} (H : Op n m) : Decidable (isrealOp H) :=
  inferInstanceAs (Decidable (∀ x y, (H x y).im = 0))

/-- `H.real`: the entrywise real part (as a complex-typed matrix with zero
imaginary parts, matching the value of the numpy cast). -/
def opReal {n m : ℕ} (H : Op n m) : Op n m := fun x y => ⟨(H x y).re, 0⟩

/-- Shallow embedding of the notebook function `ham_heis_2D(n, m, j, bz,
cyclic, sparse)` of ex_2d.ipynb.  The final `if not sparse: H = qarray(H.A)`
of the source only changes the storage format, not any entry, so the `sparse`
flag does not affect the value model. -/
def ham_heis_2D (n m : ℕ) (j bz : ℚ) (cyclic sparse : Bool) : Op n m :=
  let H := hamRaw n m j bz cyclic
  if isrealOp H then opReal H else H

/-- From the claim's words (C1/C8): the nearest-neighbour pairs of the n-by-m
open lattice, every vertical bond `((i, j), (i+1, j))` with `i+1 < n` and every
horizontal bond `((i, j), (i, j+1))` with `j+1 < m`, in row-major site order. -/
def nnPairs (n m : ℕ) : List ((ℕ × ℕ) × (ℕ × ℕ)) :=
  (List.range n).flatMap fun i => (List.range m).flatMap fun j =>
    (if i + 1 < n then [((i, j), (i + 1, j))] else []) ++
    (if j + 1 < m then [((i, j), (i, j + 1))] else [])

/-- From the claim's words (C3): the wraparound bonds in periodic boundary
conditions, one per column connecting the last row back to the first, and one
per row connecting the last column back to the first. -/
def wrapPairs (n m : ℕ) : List ((ℕ × ℕ) × (ℕ × ℕ)) :=
  ((List.range m).map fun j => ((n - 1, j), (0, j))) ++
    ((List.range n).map fun i => ((i, m - 1), (i, 0)))

/-- From the claim's words (C8): a pair of two distinct vertically or
horizontally adjacent coordinates of the n-by-m lattice. -/
def nbAdjacent (n m : ℕ) (p : (ℕ × ℕ) × (ℕ × ℕ)) : Prop :=
  p.1.1 < n ∧ p.1.2 < m ∧
    ((p.2 = (p.1.1 + 1, p.1.2) ∧ p.1.1 + 1 < n) ∨
     (p.2 = (p.1.1, p.1.2 + 1) ∧ p.1.2 + 1 < m))

/-- Modelled from the spec: `expec(A, p)`, the expectation value of the
operator `A` in the state `p`. -/
def expec {n m : ℕ} (A : Op n m) (p : Cfg n m → GRat) : GRat :=
  ∑ x : Cfg n m, ∑ y : Cfg n m, GRat.conj (p x) * A x y * p y

/-- The notebook grid of single-site Z operators (ex_2d.ipynb):
`Sz_ij = [[ikron(Sz, dims, [(i, j)]) for j in range(m)] for i in range(n)]`. -/
def Sz_ij (n m : ℕ) : List (List (Op n m)) :=
  (List.range n).map fun i => (List.range m).map fun j =>
    ikron (spin_operator 'Z') [(i, j)]

/-- The notebook magnetization grid (ex_2d.ipynb):
`m_ij = [[expec(Sz_ij[i][j], gs) for j in range(m)] for i in range(n)]`. -/
def m_ij (n m : ℕ) (gs : Cfg n m → GRat) : List (List GRat) :=
  (List.range n).map fun i => (List.range m).map fun j =>
    expec (((Sz_ij n m).getD i []).getD j 0) gs

/-- Execution phase of a notebook cell, following the order the spec states:
first the library is imported, then build Hamiltonian/state, call the solver,
consume the solver's result (optimizer loop / observable computations), print
or plot results. -/
inductive Phase where
  | libImport
  | build
  | solve
  | consume
  | output
deriving DecidableEq

/-- Position of a phase in the spec's stated order. -/
def Phase.rank : Phase → ℕ
  | .libImport => 0
  | .build => 1
  | .solve => 2
  | .consume => 3
  | .output => 4

/-- A notebook code cell, abstracted to the global names it writes, the global
names it reads from the surrounding context, and its execution phases in
source order. -/
structure Cell where
  writes : List String
  reads : List String
  phases : List Phase

/-- The code cells of ex_2d.ipynb in notebook order: imports plus the
definition of `ham_heis_2D`; parameters `n, m, dims`; `H = ham_heis_2D(...)`;
the symmetry-breaking field on site (1, 2); `ge, gs = eigh(H, k=1)`; display
of `ge[0]`; the `Sz_ij` operator grid; the magnetization grid and its plot;
the reduced density matrices; the mutual information grid and its plot; the
correlation function setup; the correlation grid and its plot. -/
def ex2dCells : List Cell :=
  [⟨["itertools", "add", "np", "spin_operator", "ikron", "eigh", "expec",
     "partial_trace", "mutinf", "purify", "correlation", "isreal", "qarray",
     "ham_heis_2D"], [], [Phase.libImport, Phase.build]⟩,
   ⟨["n", "m", "dims"], [], [Phase.build]⟩,
   ⟨["H"], ["ham_heis_2D", "n", "m", "itertools", "spin_operator", "ikron",
     "isreal", "qarray"], [Phase.build]⟩,
   ⟨["H"], ["H", "spin_operator", "ikron", "dims"], [Phase.build]⟩,
   ⟨["ge", "gs"], ["eigh", "H"], [Phase.solve]⟩,
   ⟨[], ["ge"], [Phase.output]⟩,
   ⟨["Sz", "Sz_ij"], ["spin_operator", "ikron", "dims", "m", "n"], [Phase.build]⟩,
   ⟨["m_ij", "plt"], ["expec", "Sz_ij", "gs", "m", "n"], [Phase.consume, Phase.output]⟩,
   ⟨["target", "rho_ab_ij"], ["partial_trace", "gs", "dims", "m", "n"], [Phase.consume]⟩,
   ⟨["mi_ij"], ["mutinf", "purify", "rho_ab_ij", "target", "m", "n", "plt"],
     [Phase.consume, Phase.output]⟩,
   ⟨["Sy", "z_corr"], ["spin_operator", "correlation"], [Phase.build]⟩,
   ⟨["cy_ij"], ["z_corr", "purify", "rho_ab_ij", "target", "m", "n", "plt"],
     [Phase.consume, Phase.output]⟩]

/-- The code cells of ex_torch_optimize_pbc_mps.ipynb in notebook order: the
library loading and backend selection; `H = ham_heis(...)` and `gs = groundstate(H)`
in one cell; the dense target network; the random MPS; the Adam optimizer
loop with its running printout; the normalization of the MPS and display of
its norm; display of the final overlap; the detach back to numpy; display of
the array type. -/
def torchCells : List Cell :=
  [⟨["torch", "qu", "qtn"], [], [Phase.libImport]⟩,
   ⟨["L", "H", "gs"], ["qu"], [Phase.build, Phase.solve]⟩,
   ⟨["target"], ["qtn", "gs", "torch"], [Phase.build]⟩,
   ⟨["bond_dim", "mps"], ["qtn", "L", "torch"], [Phase.build]⟩,
   ⟨["optimizer", "loss", "t"], ["torch", "mps", "target"], [Phase.consume, Phase.output]⟩,
   ⟨["mps"], ["mps"], [Phase.consume, Phase.output]⟩,
   ⟨[], ["mps", "target"], [Phase.output]⟩,
   ⟨["mps"], ["mps"], [Phase.consume]⟩,
   ⟨[], ["mps"], [Phase.output]⟩]

/-- The names written by the cells strictly before position `k`. -/
def writtenBefore (cells : List Cell) (k : ℕ) : List String :=
  (cells.take k).flatMap Cell.writes

/-- Every cell reads only names written by earlier cells. -/
def noUseBeforeDef (cells : List Cell) : Bool :=
  (List.range cells.length).all fun k =>
    ((cells.getD k ⟨[], [], []⟩).reads).all fun v => (writtenBefore cells k).contains v

/-- The flattened phase sequence of a notebook, as ranks. -/
def phaseSeq (cells : List Cell) : List ℕ :=
  (cells.flatMap Cell.phases).map Phase.rank

/-- Is a list of naturals nondecreasing? -/
def nondecreasing : List ℕ → Bool
  | [] => true
  | [_] => true
  | a :: b :: t => decide (a ≤ b) && nondecreasing (b :: t)

/-- The spec's stated global order: the phase rank never decreases along the
notebook, so in particular all printing/plotting of results comes last. -/
def statedOrder (cells : List Cell) : Prop :=
  nondecreasing (phaseSeq cells) = true

/-- The library import comes first: the first cell imports and no later cell
does. -/
def libImportFirst (cells : List Cell) : Bool :=
  match cells with
  | [] => false
  | c :: rest => c.phases.contains Phase.libImport &&
      rest.all fun d => !(d.phases.contains Phase.libImport)

/-- Every solver call happens in, or after, a cell that builds its input. -/
def solveAfterBuild (cells : List Cell) : Bool :=
  (cells.foldl (fun st c =>
      (st.1 || c.phases.contains Phase.build,
       st.2 && (!(c.phases.contains Phase.solve) || st.1 ||
         c.phases.contains Phase.build)))
    ((false, true) : Bool × Bool)).2

/-- Modelled from the spec: the pytorch-backend tensor network contraction
`a @ b` of the optimization notebook, on the flattened state vectors; pytorch
real data means no complex conjugation is performed. -/
def tnOverlap {d : ℕ} (a b : Fin d → ℚ) : ℚ := ∑ i, a i * b i

/-- The loss of the notebook loop: `loss = - (mps @ target)**2 / (mps @ mps)`. -/
def nbLoss {d : ℕ} (psi tgt : Fin d → ℚ) : ℚ :=
  -(tnOverlap psi tgt) ^ 2 / tnOverlap psi psi

/-- Modelled from the spec: one iteration of the optimization loop over an
abstract optimizer state `A`: compute the loss from the current MPS values,
then `optimizer.zero_grad()`, `loss.backward()`, `optimizer.step()` in this
order.  `view` reads the current MPS tensor values off the state; the three
external torch operations are abstract state transformers. -/
def optimStep {A : Type} {d : ℕ} (view : A → (Fin d → ℚ)) (tgt : Fin d → ℚ)
    (zeroGrad : A → A) (backward : ℚ → A → A) (stepAdam : A → A) (a : A) : A :=
  stepAdam (backward (nbLoss (view a) tgt) (zeroGrad a))

/-- The notebook loop `for t in range(1, 101)` applying `optimStep` at every
iteration. -/
def optimLoop {A : Type} {d : ℕ} (view : A → (Fin d → ℚ)) (tgt : Fin d → ℚ)
    (zeroGrad : A → A) (backward : ℚ → A → A) (stepAdam : A → A) (a0 : A) : A :=
  (List.range' 1 100).foldl (fun a _ => optimStep view tgt zeroGrad backward stepAdam a) a0

/-- Matrix-vector product over the rationals. -/
def appVec {d : ℕ} (H : Fin d → Fin d → ℚ) (v : Fin d → ℚ) : Fin d → ℚ :=
  fun i => ∑ k, H i k * v k

/-- `v` is a nonzero eigenvector of `H` with eigenvalue `e`. -/
def IsEigenpair {d : ℕ} (H : Fin d → Fin d → ℚ) (e : ℚ) (v : Fin d → ℚ) : Prop :=
  v ≠ 0 ∧ appVec H v = fun i => e * v i

/-- `e` is an eigenvalue of `H`. -/
def IsEigenvalue {d : ℕ} (H : Fin d → Fin d → ℚ) (e : ℚ) : Prop :=
  ∃ v, IsEigenpair H e v

/-- Modelled from the spec: the contract of the external call `eigh(H, k=1)`
returning `(ge, gs)` -- per the glossary, the ground state is "the
lowest-eigenvalue eigenvector of a Hamiltonian operator, obtained via an
external eigensolver call" -- so `gs` is an eigenvector with eigenvalue
`ge[0]`, and `ge[0]` is less than or equal to every eigenvalue of `H`. -/
def EighK1 {d : ℕ} (H : Fin d → Fin d → ℚ) (ge : Fin 1 → ℚ) (gs : Fin d → ℚ) : Prop :=
  IsEigenpair H (ge 0) gs ∧ ∀ e, IsEigenvalue H e → ge 0 ≤ e

/-- Modelled from the spec: the contract of the external call
`groundstate(H)` of the optimization notebook. -/
def GroundstateOf {d : ℕ} (H : Fin d → Fin d → ℚ) (gs : Fin d → ℚ) : Prop :=
  ∃ e, IsEigenpair H e gs ∧ ∀ e', IsEigenvalue H e' → e ≤ e'

/-- Concrete 2-by-2 diagonal Hamiltonian diag(0, 1), used to instantiate the
eigensolver contracts. -/
def wH : Fin 2 → Fin 2 → ℚ := fun i k => if i = k ∧ i.val = 1 then 1 else 0

/-- The k=1 energy array an eigensolver returns for `wH`. -/
def wge : Fin 1 → ℚ := fun _ => 0

/-- The ground state an eigensolver returns for `wH`. -/
def wgs : Fin 2 → ℚ := fun i => if i.val = 0 then 1 else 0

/-- The everywhere-zero state vector, used to instantiate observables. -/
def zeroState (n m : ℕ) : Cfg n m → GRat := fun _ => 0

@[simp] theorem GRat.add_re (a b : GRat) : (a + b).re = a.re + b.re := rfl

@[simp] theorem GRat.add_im (a b : GRat) : (a + b).im = a.im + b.im := rfl

@[simp] theorem GRat.mul_re (a b : GRat) : (a * b).re = a.re * b.re - a.im * b.im := rfl

@[simp] theorem GRat.mul_im (a b : GRat) : (a * b).im = a.re * b.im + a.im * b.re := rfl

@[simp] theorem GRat.zero_re : (0 : GRat).re = 0 := rfl

@[simp] theorem GRat.zero_im : (0 : GRat).im = 0 := rfl

@[simp] theorem GRat.one_re : (1 : GRat).re = 1 := rfl

@[simp] theorem GRat.one_im : (1 : GRat).im = 0 := rfl

@[ext] theorem GRat.ext {a b : GRat} (h1 : a.re = b.re) (h2 : a.im = b.im) : a = b := by
  cases a; cases b; cases h1; cases h2; rfl

theorem listSum_apply {n m : ℕ} (L : List (Op n m)) (x y : Cfg n m) :
    L.sum x y = (L.map fun A => A x y).sum := by
  induction L with
  | nil => rfl
  | cons A t ih => simp [List.sum_cons, ih]

theorem listSum_im (L : List GRat) : L.sum.im = (L.map GRat.im).sum := by
  induction L with
  | nil => rfl
  | cons a t ih => simp [List.sum_cons, ih]

theorem opReal_eq_self {n m : ℕ} {H : Op n m} (h : isrealOp H) : opReal H = H := by
  funext x y
  exact GRat.ext rfl (h x y).symm

theorem ham_heis_2D_eq_hamRaw (n m : ℕ) (j bz : ℚ) (cyclic sparse : Bool) :
    ham_heis_2D n m j bz cyclic sparse = hamRaw n m j bz cyclic := by
  by_cases h : isrealOp (hamRaw n m j bz cyclic)
  · simp [ham_heis_2D, h, opReal_eq_self h]
  · simp [ham_heis_2D, h]

theorem flatMap_congr_mem {α β : Type} {l : List α} {f g : α → List β}
    (h : ∀ a ∈ l, f a = g a) : l.flatMap f = l.flatMap g := by
  induction l with
  | nil => rfl
  | cons a t ih =>
    simp only [List.flatMap_cons]
    rw [h a (List.mem_cons_self a t), ih fun x hx => h x (List.mem_cons_of_mem a hx)]

theorem succ_mod_eq {i n : ℕ} (hi : i < n) :
    (i + 1) % n = if i + 1 < n then i + 1 else 0 := by
  by_cases h : i + 1 < n
  · rw [if_pos h, Nat.mod_eq_of_lt h]
  · have hn : i + 1 = n := by omega
    rw [if_neg h, hn, Nat.mod_self]

theorem succ_mod_ne_zero_iff {i n : ℕ} (hi : i < n) : (i + 1) % n ≠ 0 ↔ i + 1 < n := by
  rw [succ_mod_eq hi]
  by_cases h : i + 1 < n
  · simp [h]
  · simp [h]

theorem mem_sites {n m : ℕ} {p : ℕ × ℕ} : p ∈ sites n m ↔ p.1 < n ∧ p.2 < m := by
  obtain ⟨a, b⟩ := p
  simp only [sites, List.mem_flatMap, List.mem_map, List.mem_range, Prod.mk.injEq]
  constructor
  · rintro ⟨i, hi, j, hj, h1, h2⟩
    subst h1; subst h2; exact ⟨hi, hj⟩
  · rintro ⟨ha, hb⟩
    exact ⟨a, ha, b, hb, rfl, rfl⟩

theorem mem_genPairs {n m : ℕ} {cyc : Bool} {p : (ℕ × ℕ) × (ℕ × ℕ)} :
    p ∈ genPairs n m cyc ↔
      ∃ i j, i < n ∧ j < m ∧
        (((cyc = true ∨ (i + 1) % n ≠ 0) ∧ p = ((i, j), ((i + 1) % n, j))) ∨
         ((cyc = true ∨ (j + 1) % m ≠ 0) ∧ p = ((i, j), (i, (j + 1) % m)))) := by
  simp only [genPairs, List.mem_flatMap, List.mem_append]
  constructor
  · rintro ⟨ij, hij, hmem⟩
    obtain ⟨hi, hj⟩ := mem_sites.1 hij
    obtain ⟨a, b⟩ := ij
    refine ⟨a, b, hi, hj, ?_⟩
    rcases hmem with h | h
    · left
      by_cases hc : cyc = true ∨ (a + 1) % n ≠ 0
      · rw [if_pos hc] at h
        simp only [List.mem_singleton] at h
        exact ⟨hc, h⟩
      · rw [if_neg hc] at h
        simp at h
    · right
      by_cases hc : cyc = true ∨ (b + 1) % m ≠ 0
      · rw [if_pos hc] at h
        simp only [List.mem_singleton] at h
        exact ⟨hc, h⟩
      · rw [if_neg hc] at h
        simp at h
  · rintro ⟨i, j, hi, hj, ⟨hc, rfl⟩ | ⟨hc, rfl⟩⟩
    · exact ⟨(i, j), mem_sites.2 ⟨hi, hj⟩, Or.inl (by rw [if_pos hc]; simp)⟩
    · exact ⟨(i, j), mem_sites.2 ⟨hi, hj⟩, Or.inr (by rw [if_pos hc]; simp)⟩

theorem mem_genPairs_false {n m : ℕ} {p : (ℕ × ℕ) × (ℕ × ℕ)} :
    p ∈ genPairs n m false ↔
      ∃ i j, i < n ∧ j < m ∧
        ((i + 1 < n ∧ p = ((i, j), (i + 1, j))) ∨
         (j + 1 < m ∧ p = ((i, j), (i, j + 1)))) := by
  rw [mem_genPairs]
  constructor
  · rintro ⟨i, j, hi, hj, ⟨hc, rfl⟩ | ⟨hc, rfl⟩⟩
    · have hc' : (i + 1) % n ≠ 0 := by simpa using hc
      have hlt : i + 1 < n := (succ_mod_ne_zero_iff hi).1 hc'
      refine ⟨i, j, hi, hj, Or.inl ⟨hlt, ?_⟩⟩
      rw [Nat.mod_eq_of_lt hlt]
    · have hc' : (j + 1) % m ≠ 0 := by simpa using hc
      have hlt : j + 1 < m := (succ_mod_ne_zero_iff hj).1 hc'
      refine ⟨i, j, hi, hj, Or.inr ⟨hlt, ?_⟩⟩
      rw [Nat.mod_eq_of_lt hlt]
  · rintro ⟨i, j, hi, hj, ⟨hlt, rfl⟩ | ⟨hlt, rfl⟩⟩
    · refine ⟨i, j, hi, hj, Or.inl ⟨Or.inr ((succ_mod_ne_zero_iff hi).2 hlt), ?_⟩⟩
      rw [Nat.mod_eq_of_lt hlt]
    · refine ⟨i, j, hi, hj, Or.inr ⟨Or.inr ((succ_mod_ne_zero_iff hj).2 hlt), ?_⟩⟩
      rw [Nat.mod_eq_of_lt hlt]

theorem genPairs_false_eq_nnPairs (n m : ℕ) : genPairs n m false = nnPairs n m := by
  unfold genPairs nnPairs sites
  rw [List.flatMap_assoc]
  refine flatMap_congr_mem fun i hi => ?_
  rw [List.flatMap_map]
  refine flatMap_congr_mem fun j hj => ?_
  have hi' := List.mem_range.1 hi
  have hj' := List.mem_range.1 hj
  dsimp only
  congr 1
  · by_cases h : i + 1 < n
    · rw [if_pos (Or.inr ((succ_mod_ne_zero_iff hi').2 h)), if_pos h, Nat.mod_eq_of_lt h]
    · have hmod0 : (i + 1) % n = 0 := by rw [succ_mod_eq hi', if_neg h]
      rw [if_neg (by simp [hmod0]), if_neg h]
  · by_cases h : j + 1 < m
    · rw [if_pos (Or.inr ((succ_mod_ne_zero_iff hj').2 h)), if_pos h, Nat.mod_eq_of_lt h]
    · have hmod0 : (j + 1) % m = 0 := by rw [succ_mod_eq hj', if_neg h]
      rw [if_neg (by simp [hmod0]), if_neg h]

theorem sum_map_add_nat {α : Type} (l : List α) (f g : α → ℕ) :
    (l.map fun a => f a + g a).sum = (l.map f).sum + (l.map g).sum := by
  induction l with
  | nil => rfl
  | cons a t ih => simp only [List.map_cons, List.sum_cons, ih]; ring

theorem sum_map_const_nat {α : Type} (l : List α) (c : ℕ) :
    (l.map fun _ => c).sum = l.length * c := by
  induction l with
  | nil => simp
  | cons a t ih => simp only [List.map_cons, List.sum_cons, List.length_cons, ih]; ring

theorem sum_range_ite_succ_lt (k c : ℕ) :
    ((List.range k).map fun j => if j + 1 < k then c else 0).sum = (k - 1) * c := by
  cases k with
  | zero => simp
  | succ k' =>
    rw [List.range_succ, List.map_append, List.sum_append]
    have h1 : (List.range k').map (fun j => if j + 1 < k' + 1 then c else 0) =
        (List.range k').map fun _ => c :=
      List.map_congr_left fun j hj => if_pos (by have := List.mem_range.1 hj; omega)
    rw [h1, sum_map_const_nat, List.length_range]
    simp only [List.map_cons, List.sum_cons, List.map_nil, List.sum_nil]
    rw [if_neg (by omega), Nat.add_sub_cancel]
    simp

theorem length_nnPairs (n m : ℕ) :
    (nnPairs n m).length = n * (m - 1) + (n - 1) * m := by
  unfold nnPairs
  rw [List.length_flatMap]
  simp only [Function.comp_def]
  have h1 : ((List.range n).map fun i =>
      ((List.range m).flatMap fun j =>
        (if i + 1 < n then [((i, j), (i + 1, j))] else []) ++
        (if j + 1 < m then [((i, j), (i, j + 1))] else [])).length) =
      (List.range n).map fun i => ((if i + 1 < n then m else 0) + (m - 1)) := by
    refine List.map_congr_left fun i hi => ?_
    rw [List.length_flatMap]
    simp only [Function.comp_def]
    have h2 : ((List.range m).map fun j =>
        ((if i + 1 < n then [((i, j), (i + 1, j))] else []) ++
         (if j + 1 < m then [((i, j), (i, j + 1))] else [])).length) =
        (List.range m).map fun j =>
          ((if i + 1 < n then 1 else 0) + (if j + 1 < m then 1 else 0)) := by
      refine List.map_congr_left fun j hj => ?_
      rw [List.length_append]
      congr 1 <;> split <;> rfl
    rw [h2, sum_map_add_nat]
    congr 1
    · by_cases h : i + 1 < n
      · simp only [if_pos h]
        rw [sum_map_const_nat, List.length_range, mul_one]
      · simp only [if_neg h]
        rw [sum_map_const_nat, mul_zero]
    · rw [sum_range_ite_succ_lt m 1, mul_one]
  rw [h1, sum_map_add_nat, sum_range_ite_succ_lt n m, sum_map_const_nat, List.length_range]
  exact Nat.add_comm _ _

theorem length_sites (n m : ℕ) : (sites n m).length = n * m := by
  unfold sites
  rw [List.length_flatMap]
  simp only [Function.comp_def]
  have h1 : ((List.range n).map fun i => ((List.range m).map fun j => (i, j)).length) =
      (List.range n).map fun _ => m := by
    refine List.map_congr_left fun i _ => ?_
    rw [List.length_map, List.length_range]
  rw [h1, sum_map_const_nat, List.length_range]

theorem length_pairs_ss (n m : ℕ) (cyc : Bool) :
    (pairs_ss n m cyc).length = 3 * (genPairs n m cyc).length := by
  unfold pairs_ss
  rw [List.length_flatMap]
  simp only [Function.comp_def]
  have h1 : ((genPairs n m cyc).map fun p => (['x', 'y', 'z'].map fun s => (p, s)).length) =
      (genPairs n m cyc).map fun _ => 3 :=
    List.map_congr_left fun p _ => rfl
  rw [h1, sum_map_const_nat]
  exact Nat.mul_comm _ _

theorem mem_inner_pairs {n m i j : ℕ} {p : (ℕ × ℕ) × (ℕ × ℕ)}
    (hp : p ∈ (if i + 1 < n then [((i, j), (i + 1, j))] else []) ++
          (if j + 1 < m then [((i, j), (i, j + 1))] else [])) :
    p.1 = (i, j) := by
  rcases List.mem_append.1 hp with h | h
  · split at h
    · simp only [List.mem_singleton] at h
      rw [h]
    · simp at h
  · split at h
    · simp only [List.mem_singleton] at h
      rw [h]
    · simp at h

theorem nodup_nnPairs (n m : ℕ) : (nnPairs n m).Nodup := by
  unfold nnPairs
  rw [List.nodup_flatMap]
  constructor
  · intro i _
    rw [List.nodup_flatMap]
    constructor
    · intro j _
      by_cases h1 : i + 1 < n <;> by_cases h2 : j + 1 < m <;> simp [h1, h2]
    · refine (List.pairwise_lt_range m).imp ?_
      intro j1 j2 hlt p hp1 hp2
      have e1 := mem_inner_pairs hp1
      have e2 := mem_inner_pairs hp2
      rw [e1] at e2
      have : j1 = j2 := (Prod.ext_iff.1 e2).2
      omega
  · refine (List.pairwise_lt_range n).imp ?_
    intro i1 i2 hlt p hp1 hp2
    obtain ⟨j1, _, hm1⟩ := List.mem_flatMap.1 hp1
    obtain ⟨j2, _, hm2⟩ := List.mem_flatMap.1 hp2
    have e1 := mem_inner_pairs hm1
    have e2 := mem_inner_pairs hm2
    rw [e1] at e2
    have : i1 = i2 := (Prod.ext_iff.1 e2).1
    omega

theorem genPairs_false_adjacent {n m : ℕ} :
    ∀ p ∈ genPairs n m false, p.1 ≠ p.2 ∧ nbAdjacent n m p := by
  intro p hp
  rw [mem_genPairs_false] at hp
  obtain ⟨i, j, hi, hj, ⟨hlt, rfl⟩ | ⟨hlt, rfl⟩⟩ := hp
  · refine ⟨?_, hi, hj, Or.inl ⟨rfl, hlt⟩⟩
    simp only [ne_eq, Prod.mk.injEq, not_and]
    intro h
    omega
  · refine ⟨?_, hi, hj, Or.inr ⟨rfl, hlt⟩⟩
    simp only [ne_eq, Prod.mk.injEq, not_and]
    intro h
    omega

theorem prod_im_zero {α : Type} (s : Finset α) (f : α → GRat)
    (h : ∀ a ∈ s, (f a).im = 0) : (∏ a ∈ s, f a).im = 0 := by
  refine Finset.prod_induction f (fun z => z.im = 0) ?_ ?_ h
  · intro a b ha hb
    simp [ha, hb]
  · simp

theorem prod_two_imag {α : Type} [DecidableEq α] (s : Finset α) (f : α → GRat)
    (a b : α) (hab : a ≠ b) (ha : a ∈ s) (hb : b ∈ s)
    (hia : (f a).re = 0) (hib : (f b).re = 0)
    (hrest : ∀ x ∈ s, x ≠ a → x ≠ b → (f x).im = 0) :
    (∏ x ∈ s, f x).im = 0 := by
  rw [← Finset.mul_prod_erase s f ha]
  have hb' : b ∈ s.erase a := Finset.mem_erase.2 ⟨fun h => hab h.symm, hb⟩
  rw [← Finset.mul_prod_erase _ f hb']
  have hrest0 : (∏ x ∈ (s.erase a).erase b, f x).im = 0 := by
    refine prod_im_zero _ _ fun x hx => ?_
    have hxb : x ≠ b := (Finset.mem_erase.1 hx).1
    have hx2 := (Finset.mem_erase.1 hx).2
    have hxa : x ≠ a := (Finset.mem_erase.1 hx2).1
    exact hrest x (Finset.mem_of_mem_erase hx2) hxa hxb
  simp [hia, hib, hrest0]

theorem spin_xz_real (s : Char) (hs : s = 'x' ∨ s = 'z') (a b : Fin 2) :
    (spin_operator s a b).im = 0 := by
  rcases hs with rfl | rfl <;> fin_cases a <;> fin_cases b <;> decide

theorem spin_y_imag (a b : Fin 2) : (spin_operator 'y' a b).re = 0 := by
  fin_cases a <;> fin_cases b <;> decide

theorem ofRat_mul_im {c : ℚ} {z : GRat} (hz : z.im = 0) : (GRat.ofRat c * z).im = 0 := by
  simp [GRat.ofRat, hz]

theorem ofRat_mul_re {c : ℚ} {z : GRat} (hz : z.re = 0) : (GRat.ofRat c * z).re = 0 := by
  simp [GRat.ofRat, hz]

theorem ikron_isreal {n m : ℕ} (op : Fin 2 → Fin 2 → GRat) (inds : List (ℕ × ℕ))
    (hop : ∀ a b, (op a b).im = 0) : isrealOp (ikron (n := n) (m := m) op inds) := by
  intro x y
  unfold ikron
  refine prod_im_zero _ _ fun s _ => ?_
  split
  · exact hop _ _
  · split <;> simp

theorem ikron_pair_isreal {n m : ℕ} (op : Fin 2 → Fin 2 → GRat)
    (hop : ∀ a b, (op a b).re = 0) {c1 c2 : ℕ × ℕ}
    (h1 : c1.1 < n) (h2 : c1.2 < m) (h3 : c2.1 < n) (h4 : c2.2 < m) (hne : c1 ≠ c2) :
    isrealOp (ikron (n := n) (m := m) op [c1, c2]) := by
  intro x y
  unfold ikron
  refine prod_two_imag Finset.univ _ (⟨⟨c1.1, h1⟩, ⟨c1.2, h2⟩⟩ : Fin n × Fin m)
    (⟨⟨c2.1, h3⟩, ⟨c2.2, h4⟩⟩ : Fin n × Fin m) ?_ (Finset.mem_univ _) (Finset.mem_univ _)
    ?_ ?_ ?_
  · intro h
    apply hne
    have e1 : c1.1 = c2.1 := congrArg (fun t : Fin n × Fin m => (t.1 : ℕ)) h
    have e2 : c1.2 = c2.2 := congrArg (fun t : Fin n × Fin m => (t.2 : ℕ)) h
    exact Prod.ext e1 e2
  · have hc : ((c1.1 : ℕ), (c1.2 : ℕ)) ∈ [c1, c2] := by simp
    rw [if_pos hc]
    exact hop _ _
  · have hc : ((c2.1 : ℕ), (c2.2 : ℕ)) ∈ [c1, c2] := by simp
    rw [if_pos hc]
    exact hop _ _
  · intro s _ hsa hsb
    split
    · rename_i h
      exfalso
      simp only [List.mem_cons, List.not_mem_nil, or_false] at h
      rcases h with h | h
      · apply hsa
        exact Prod.ext (Fin.ext (Prod.ext_iff.1 h).1) (Fin.ext (Prod.ext_iff.1 h).2)
      · apply hsb
        exact Prod.ext (Fin.ext (Prod.ext_iff.1 h).1) (Fin.ext (Prod.ext_iff.1 h).2)
    · split <;> simp

theorem fields_isreal {n m : ℕ} (bz : ℚ) (site : ℕ × ℕ) :
    isrealOp (fields n m bz site) :=
  ikron_isreal _ _ fun a b => ofRat_mul_im (spin_xz_real 'z' (Or.inr rfl) a b)

theorem interactions_isreal_xz {n m : ℕ} (j : ℚ) (p : (ℕ × ℕ) × (ℕ × ℕ)) (s : Char)
    (hs : s = 'x' ∨ s = 'z') : isrealOp (interactions n m j (p, s)) :=
  ikron_isreal _ _ fun a b => ofRat_mul_im (spin_xz_real s hs a b)

theorem interactions_isreal_y {n m : ℕ} (j : ℚ) {p : (ℕ × ℕ) × (ℕ × ℕ)}
    (h1 : p.1.1 < n) (h2 : p.1.2 < m) (h3 : p.2.1 < n) (h4 : p.2.2 < m)
    (hne : p.1 ≠ p.2) : isrealOp (interactions n m j (p, 'y')) :=
  ikron_pair_isreal (fun a b => GRat.ofRat j * spin_operator 'y' a b)
    (fun a b => ofRat_mul_re (spin_y_imag a b)) h1 h2 h3 h4 hne

theorem allTerms_false_isreal (n m : ℕ) (j bz : ℚ) :
    ∀ A ∈ allTerms n m j bz false, isrealOp A := by
  intro A hA
  unfold allTerms at hA
  rcases List.mem_append.1 hA with hA | hA
  · obtain ⟨ps, hps, rfl⟩ := List.mem_map.1 hA
    unfold pairs_ss at hps
    obtain ⟨p, hp, hmem⟩ := List.mem_flatMap.1 hps
    obtain ⟨s, hs, rfl⟩ := List.mem_map.1 hmem
    simp only [List.mem_cons, List.not_mem_nil, or_false] at hs
    rcases hs with rfl | rfl | rfl
    · exact interactions_isreal_xz j p 'x' (Or.inl rfl)
    · obtain ⟨i, jj, hi, hj, hcase⟩ := mem_genPairs_false.1 hp
      rcases hcase with ⟨hlt, rfl⟩ | ⟨hlt, rfl⟩
      · refine interactions_isreal_y j hi hj hlt hj ?_
        simp only [ne_eq, Prod.mk.injEq, not_and]
        intro h
        omega
      · refine interactions_isreal_y j hi hj hi hlt ?_
        simp only [ne_eq, Prod.mk.injEq, not_and]
        intro h
        omega
    · exact interactions_isreal_xz j p 'z' (Or.inr rfl)
  · split at hA
    · obtain ⟨site, hsite, rfl⟩ := List.mem_map.1 hA
      exact fields_isreal bz site
    · simp at hA

theorem hamRaw_false_isreal (n m : ℕ) (j bz : ℚ) : isrealOp (hamRaw n m j bz false) := by
  intro x y
  rw [hamRaw, listSum_apply, listSum_im]
  refine List.sum_eq_zero fun v hv => ?_
  obtain ⟨w, hw, rfl⟩ := List.mem_map.1 hv
  obtain ⟨A, hA, rfl⟩ := List.mem_map.1 hw
  exact allTerms_false_isreal n m j bz A hA x y

theorem getD_map_range {β : Type} (k : ℕ) (f : ℕ → β) (i : ℕ) (d : β) (h : i < k) :
    ((List.range k).map f).getD i d = f i := by
  rw [List.getD_eq_getElem?_getD, List.getElem?_map, List.getElem?_range h]
  rfl

theorem foldl_const_iterate {α β : Type} (f : α → α) (a : α) (l : List β) :
    l.foldl (fun x _ => f x) a = f^[l.length] a := by
  induction l generalizing a with
  | nil => rfl
  | cons x t ih => simp [List.foldl_cons, ih, Function.iterate_succ_apply]

theorem mem_wrapPairs {n m : ℕ} {p : (ℕ × ℕ) × (ℕ × ℕ)} :
    p ∈ wrapPairs n m ↔
      ((∃ j < m, p = ((n - 1, j), (0, j))) ∨ (∃ i < n, p = ((i, m - 1), (i, 0)))) := by
  unfold wrapPairs
  rw [List.mem_append]
  constructor
  · rintro (h | h)
    · obtain ⟨j, hj, rfl⟩ := List.mem_map.1 h
      exact Or.inl ⟨j, List.mem_range.1 hj, rfl⟩
    · obtain ⟨i, hi, rfl⟩ := List.mem_map.1 h
      exact Or.inr ⟨i, List.mem_range.1 hi, rfl⟩
  · rintro (⟨j, hj, rfl⟩ | ⟨i, hi, rfl⟩)
    · exact Or.inl (List.mem_map.2 ⟨j, List.mem_range.2 hj, rfl⟩)
    · exact Or.inr (List.mem_map.2 ⟨i, List.mem_range.2 hi, rfl⟩)

/-- C1: for every n >= 1, m >= 1, real (rational) j and bz, with cyclic=False,
`ham_heis_2D(n, m, j, bz, cyclic, sparse)` returns the sum, over every
nearest-neighbour pair of sites of the n-by-m lattice and every direction s
in {x, y, z}, of the two-site term `ikron(j * S^s, dims, inds=pair)`, plus
the single-site field terms `ikron(bz * S^z, dims, inds=[site])` summed over
all n*m sites if and only if bz is nonzero (with bz = 0 no field term is
added). -/
theorem ham_heis_2D_sum_of_terms (n m : ℕ) (j bz : ℚ) (sparse : Bool)
    (hn : 1 ≤ n) (hm : 1 ≤ m) :
    ham_heis_2D n m j bz false sparse =
      ((nnPairs n m).flatMap fun p => ['x', 'y', 'z'].map fun s =>
        ikron (fun a b => GRat.ofRat j * spin_operator s a b) [p.1, p.2]).sum +
      (if bz ≠ 0 then
        ((sites n m).map fun site =>
          ikron (fun a b => GRat.ofRat bz * spin_operator 'z' a b) [site]).sum
       else 0) := by
  rw [ham_heis_2D_eq_hamRaw]
  unfold hamRaw allTerms
  rw [List.sum_append]
  congr 1
  · unfold pairs_ss
    rw [List.map_flatMap, genPairs_false_eq_nnPairs]
    refine congrArg List.sum (flatMap_congr_mem fun p _ => ?_)
    rw [List.map_map]
    rfl
  · split
    · rfl
    · rfl

/-- Witness for C1 at n = m = 1, j = 1, bz = 0, sparse = true. -/
theorem ham_heis_2D_sum_of_terms_witness :
    ham_heis_2D 1 1 1 0 false true =
      ((nnPairs 1 1).flatMap fun p => ['x', 'y', 'z'].map fun s =>
        ikron (fun a b => GRat.ofRat 1 * spin_operator s a b) [p.1, p.2]).sum +
      (if (0 : ℚ) ≠ 0 then
        ((sites 1 1).map fun site =>
          ikron (fun a b => GRat.ofRat 0 * spin_operator 'z' a b) [site]).sum
       else 0) :=
  ham_heis_2D_sum_of_terms 1 1 1 0 true (by decide) (by decide)

/-- C8: for every n >= 1, m >= 1 and cyclic=False, `gen_pairs` yields exactly
n*(m-1) + (n-1)*m pairs, each a pair of two distinct vertically or
horizontally adjacent lattice coordinates, no pair yielded twice; `pairs_ss`
therefore has exactly 3*(n*(m-1) + (n-1)*m) elements and the Hamiltonian is
the sum of that many interaction terms, plus one field term per site exactly
when bz is nonzero. -/
theorem genPairs_count_nodup_adjacent (n m : ℕ) (j bz : ℚ) (hn : 1 ≤ n) (hm : 1 ≤ m) :
    (genPairs n m false).length = n * (m - 1) + (n - 1) * m ∧
    (∀ p ∈ genPairs n m false, p.1 ≠ p.2 ∧ nbAdjacent n m p) ∧
    (genPairs n m false).Nodup ∧
    (pairs_ss n m false).length = 3 * (n * (m - 1) + (n - 1) * m) ∧
    (allTerms n m j bz false).length =
      3 * (n * (m - 1) + (n - 1) * m) + (if bz ≠ 0 then n * m else 0) ∧
    hamRaw n m j bz false = (allTerms n m j bz false).sum := by
  have hlen : (genPairs n m false).length = n * (m - 1) + (n - 1) * m := by
    rw [genPairs_false_eq_nnPairs, length_nnPairs]
  refine ⟨hlen, genPairs_false_adjacent, ?_, ?_, ?_, rfl⟩
  · rw [genPairs_false_eq_nnPairs]
    exact nodup_nnPairs n m
  · rw [length_pairs_ss, hlen]
  · unfold allTerms
    rw [List.length_append, List.length_map, length_pairs_ss, hlen]
    congr 1
    split
    · rw [List.length_map, length_sites]
    · rfl

/-- Witness for C8 at n = m = 1, j = 1, bz = 1. -/
theorem genPairs_count_nodup_adjacent_witness :
    (genPairs 1 1 false).length = 1 * (1 - 1) + (1 - 1) * 1 ∧
    (∀ p ∈ genPairs 1 1 false, p.1 ≠ p.2 ∧ nbAdjacent 1 1 p) ∧
    (genPairs 1 1 false).Nodup ∧
    (pairs_ss 1 1 false).length = 3 * (1 * (1 - 1) + (1 - 1) * 1) ∧
    (allTerms 1 1 1 1 false).length =
      3 * (1 * (1 - 1) + (1 - 1) * 1) + (if (1 : ℚ) ≠ 0 then 1 * 1 else 0) ∧
    hamRaw 1 1 1 1 false = (allTerms 1 1 1 1 false).sum :=
  genPairs_count_nodup_adjacent 1 1 1 1 (by decide) (by decide)

/-- C9: for every n, m and real (rational) j, bz, with cyclic=False as in the
notebook run, the matrix H summed inside `ham_heis_2D` is real: the purely
imaginary entries of the two y-direction spin operators cancel in each
Kronecker-embedded S^y S^y term, so the `isreal(H)` branch is taken and the
function returns the real-valued matrix `H.real`. -/
theorem ham_heis_2D_isreal_branch (n m : ℕ) (j bz : ℚ) (sparse : Bool) :
    isrealOp (hamRaw n m j bz false) ∧
    ham_heis_2D n m j bz false sparse = opReal (hamRaw n m j bz false) ∧
    isrealOp (ham_heis_2D n m j bz false sparse) := by
  have h := hamRaw_false_isreal n m j bz
  refine ⟨h, ?_, ?_⟩
  · show (if isrealOp (hamRaw n m j bz false) then opReal (hamRaw n m j bz false)
      else hamRaw n m j bz false) = opReal (hamRaw n m j bz false)
    rw [if_pos h]
  · rw [ham_heis_2D_eq_hamRaw]
    exact h

/-- C3: with cyclic=True (and n >= 2, m >= 2), `gen_pairs` additionally
yields, for every column j, the wraparound pair ((n-1, j), (0, j)), and for
every row i the pair ((i, m-1), (i, 0)); with cyclic=False exactly these
wraparound pairs are omitted and no other pair changes. -/
theorem genPairs_cyclic_wraparound (n m : ℕ) (hn : 2 ≤ n) (hm : 2 ≤ m) :
    (∀ p, p ∈ genPairs n m true ↔ (p ∈ genPairs n m false ∨ p ∈ wrapPairs n m)) ∧
    (∀ p ∈ wrapPairs n m, p ∉ genPairs n m false) := by
  constructor
  · intro p
    constructor
    · intro hp
      obtain ⟨i, j, hi, hj, hcase⟩ := mem_genPairs.1 hp
      rcases hcase with ⟨hc, rfl⟩ | ⟨hc, rfl⟩
      · by_cases hlt : i + 1 < n
        · refine Or.inl (mem_genPairs_false.2 ⟨i, j, hi, hj, Or.inl ⟨hlt, ?_⟩⟩)
          rw [Nat.mod_eq_of_lt hlt]
        · have h0 : (i + 1) % n = 0 := by
            have hin : i + 1 = n := by omega
            rw [hin, Nat.mod_self]
          have hieq : i = n - 1 := by omega
          refine Or.inr (mem_wrapPairs.2 (Or.inl ⟨j, hj, ?_⟩))
          rw [h0, hieq]
      · by_cases hlt : j + 1 < m
        · refine Or.inl (mem_genPairs_false.2 ⟨i, j, hi, hj, Or.inr ⟨hlt, ?_⟩⟩)
          rw [Nat.mod_eq_of_lt hlt]
        · have h0 : (j + 1) % m = 0 := by
            have hjm : j + 1 = m := by omega
            rw [hjm, Nat.mod_self]
          have hjeq : j = m - 1 := by omega
          refine Or.inr (mem_wrapPairs.2 (Or.inr ⟨i, hi, ?_⟩))
          rw [h0, hjeq]
    · rintro (hp | hp)
      · obtain ⟨i, j, hi, hj, hcase⟩ := mem_genPairs_false.1 hp
        rcases hcase with ⟨hlt, rfl⟩ | ⟨hlt, rfl⟩
        · refine mem_genPairs.2 ⟨i, j, hi, hj, Or.inl ⟨Or.inl rfl, ?_⟩⟩
          rw [Nat.mod_eq_of_lt hlt]
        · refine mem_genPairs.2 ⟨i, j, hi, hj, Or.inr ⟨Or.inl rfl, ?_⟩⟩
          rw [Nat.mod_eq_of_lt hlt]
      · rcases mem_wrapPairs.1 hp with ⟨j, hj, rfl⟩ | ⟨i, hi, rfl⟩
        · refine mem_genPairs.2 ⟨n - 1, j, by omega, hj, Or.inl ⟨Or.inl rfl, ?_⟩⟩
          have h0 : (n - 1 + 1) % n = 0 := by
            have : n - 1 + 1 = n := by omega
            rw [this, Nat.mod_self]
          rw [h0]
        · refine mem_genPairs.2 ⟨i, m - 1, hi, by omega, Or.inr ⟨Or.inl rfl, ?_⟩⟩
          have h0 : (m - 1 + 1) % m = 0 := by
            have : m - 1 + 1 = m := by omega
            rw [this, Nat.mod_self]
          rw [h0]
  · intro p hp hpf
    rcases mem_wrapPairs.1 hp with ⟨j, hj, rfl⟩ | ⟨i, hi, rfl⟩ <;>
      · obtain ⟨i', j', hi', hj', hcase⟩ := mem_genPairs_false.1 hpf
        rcases hcase with ⟨hlt, heq⟩ | ⟨hlt, heq⟩ <;>
          · simp only [Prod.mk.injEq] at heq
            omega

/-- Witness for C3 at n = m = 2. -/
theorem genPairs_cyclic_wraparound_witness :
    (∀ p, p ∈ genPairs 2 2 true ↔ (p ∈ genPairs 2 2 false ∨ p ∈ wrapPairs 2 2)) ∧
    (∀ p ∈ wrapPairs 2 2, p ∉ genPairs 2 2 false) :=
  genPairs_cyclic_wraparound 2 2 (by decide) (by decide)

/-- C10: with cyclic=True and n = 1 (symmetrically m = 1), the wraparound
coordinate (i + 1) % n equals i itself, so `gen_pairs` yields degenerate
pairs ((i, j), (i, j)) whose two coordinates coincide -- `ikron` is then
invoked with a repeated index instead of the vertical (resp. horizontal)
bonds being absent; with cyclic=True every yielded pair has two distinct
sites exactly when n >= 2 and m >= 2. -/
theorem genPairs_cyclic_degenerate (n m : ℕ) (hn : 1 ≤ n) (hm : 1 ≤ m) :
    (n = 1 → ∀ j < m, ((0, j), (0, j)) ∈ genPairs n m true) ∧
    (m = 1 → ∀ i < n, ((i, 0), (i, 0)) ∈ genPairs n m true) ∧
    ((∀ p ∈ genPairs n m true, p.1 ≠ p.2) ↔ (2 ≤ n ∧ 2 ≤ m)) := by
  have h1 : n = 1 → ∀ j < m, ((0, j), (0, j)) ∈ genPairs n m true := by
    rintro rfl j hj
    refine mem_genPairs.2 ⟨0, j, by omega, hj, Or.inl ⟨Or.inl rfl, ?_⟩⟩
    norm_num
  have h2 : m = 1 → ∀ i < n, ((i, 0), (i, 0)) ∈ genPairs n m true := by
    rintro rfl i hi
    refine mem_genPairs.2 ⟨i, 0, hi, by omega, Or.inr ⟨Or.inl rfl, ?_⟩⟩
    norm_num
  refine ⟨h1, h2, ?_, ?_⟩
  · intro hall
    constructor
    · by_contra hlt
      have hn1 : n = 1 := by omega
      have hmem := h1 hn1 0 (by omega)
      exact hall _ hmem rfl
    · by_contra hlt
      have hm1 : m = 1 := by omega
      have hmem := h2 hm1 0 (by omega)
      exact hall _ hmem rfl
  · rintro ⟨hn2, hm2⟩ p hp
    obtain ⟨i, j, hi, hj, hcase⟩ := mem_genPairs.1 hp
    rcases hcase with ⟨hc, rfl⟩ | ⟨hc, rfl⟩
    · intro heq
      have heq' : (i, j) = ((i + 1) % n, j) := heq
      simp only [Prod.mk.injEq] at heq'
      obtain ⟨e, -⟩ := heq'
      rw [succ_mod_eq hi] at e
      by_cases hlt : i + 1 < n
      · rw [if_pos hlt] at e
        omega
      · rw [if_neg hlt] at e
        omega
    · intro heq
      have heq' : (i, j) = (i, (j + 1) % m) := heq
      simp only [Prod.mk.injEq] at heq'
      obtain ⟨-, e⟩ := heq'
      rw [succ_mod_eq hj] at e
      by_cases hlt : j + 1 < m
      · rw [if_pos hlt] at e
        omega
      · rw [if_neg hlt] at e
        omega

/-- Witness for C10 at n = 1, m = 2. -/
theorem genPairs_cyclic_degenerate_witness :
    (1 = 1 → ∀ j < 2, ((0, j), (0, j)) ∈ genPairs 1 2 true) ∧
    (2 = 1 → ∀ i < 1, ((i, 0), (i, 0)) ∈ genPairs 1 2 true) ∧
    ((∀ p ∈ genPairs 1 2 true, p.1 ≠ p.2) ↔ (2 ≤ 1 ∧ 2 ≤ 2)) :=
  genPairs_cyclic_degenerate 1 2 (by decide) (by decide)

/-- C7: the magnetization computed by the 2D notebook is site-resolved:
`m_ij` is an n-by-m grid whose (i, j) entry equals
`expec(ikron(Sz, dims, [(i, j)]), gs)`, the expectation in the ground state
of the Z spin operator embedded at exactly the single site (i, j), for every
0 <= i < n and 0 <= j < m. -/
theorem m_ij_site_resolved (n m : ℕ) (gs : Cfg n m → GRat) (i j : ℕ)
    (hi : i < n) (hj : j < m) :
    (m_ij n m gs).length = n ∧
    (∀ row ∈ m_ij n m gs, row.length = m) ∧
    ((m_ij n m gs).getD i []).getD j 0 =
      expec (ikron (spin_operator 'Z') [(i, j)]) gs := by
  refine ⟨?_, ?_, ?_⟩
  · unfold m_ij
    rw [List.length_map, List.length_range]
  · intro row hrow
    unfold m_ij at hrow
    obtain ⟨i', _, rfl⟩ := List.mem_map.1 hrow
    rw [List.length_map, List.length_range]
  · unfold m_ij
    rw [getD_map_range _ _ _ _ hi, getD_map_range _ _ _ _ hj]
    congr 1
    unfold Sz_ij
    rw [getD_map_range _ _ _ _ hi, getD_map_range _ _ _ _ hj]

/-- Witness for C7 at the notebook's n = 4, m = 5, site (1, 2), in the zero
state. -/
theorem m_ij_site_resolved_witness :
    (m_ij 4 5 (zeroState 4 5)).length = 4 ∧
    (∀ row ∈ m_ij 4 5 (zeroState 4 5), row.length = 5) ∧
    ((m_ij 4 5 (zeroState 4 5)).getD 1 []).getD 2 0 =
      expec (ikron (spin_operator 'Z') [(1, 2)]) (zeroState 4 5) :=
  m_ij_site_resolved 4 5 (zeroState 4 5) 1 2 (by decide) (by decide)

/-- C5: whenever the external eigensolver calls meet their contract --
`eigh(H, k=1)` returning `(ge, gs)` in the 2D notebook and `groundstate(H)`
in the optimization notebook -- the returned energy `ge[0]` is the minimum
eigenvalue of H and the returned vector is a corresponding eigenvector, and
likewise the state returned by `groundstate` is an eigenvector of a least
eigenvalue. -/
theorem eigh_groundstate_min (d1 d2 : ℕ) (H1 : Fin d1 → Fin d1 → ℚ)
    (ge : Fin 1 → ℚ) (gs1 : Fin d1 → ℚ) (H2 : Fin d2 → Fin d2 → ℚ)
    (gs2 : Fin d2 → ℚ) (h1 : EighK1 H1 ge gs1) (h2 : GroundstateOf H2 gs2) :
    (IsLeast {e | IsEigenvalue H1 e} (ge 0) ∧ IsEigenpair H1 (ge 0) gs1) ∧
    (∃ e, IsLeast {e' | IsEigenvalue H2 e'} e ∧ IsEigenpair H2 e gs2) := by
  obtain ⟨hp1, hmin1⟩ := h1
  obtain ⟨e, hp2, hmin2⟩ := h2
  exact ⟨⟨⟨⟨gs1, hp1⟩, fun b hb => hmin1 b hb⟩, hp1⟩,
    ⟨e, ⟨⟨gs2, hp2⟩, fun b hb => hmin2 b hb⟩, hp2⟩⟩

/-- Witness for C5: the eigensolver contracts instantiated on the concrete
2-by-2 Hamiltonian diag(0, 1), whose least eigenvalue 0 has eigenvector
(1, 0). -/
theorem eigh_groundstate_min_witness :
    (IsLeast {e | IsEigenvalue wH e} (wge 0) ∧ IsEigenpair wH (wge 0) wgs) ∧
    (∃ e, IsLeast {e' | IsEigenvalue wH e'} e ∧ IsEigenpair wH e wgs) := by
  have hpair : IsEigenpair wH (0 : ℚ) wgs := by
    constructor
    · intro h
      have h0 := congrFun h 0
      simp [wgs] at h0
    · funext i
      fin_cases i <;> simp [appVec, wH, wgs, Fin.sum_univ_two]
  have hmin : ∀ e, IsEigenvalue wH e → (0 : ℚ) ≤ e := by
    rintro e ⟨v, hv0, hMv⟩
    have h0 := congrFun hMv 0
    have h1 := congrFun hMv 1
    simp only [appVec, wH, Fin.sum_univ_two] at h0 h1
    norm_num at h0 h1
    by_cases hv1 : v 1 = 0
    · have hv00 : v 0 ≠ 0 := by
        intro h00
        apply hv0
        funext k
        fin_cases k
        · exact h00
        · exact hv1
      rcases h0 with h | h
      · exact h.ge
      · exact absurd h hv00
    · have h2 : (e - 1) * v 1 = 0 := by linear_combination -h1
      rcases mul_eq_zero.1 h2 with h | h
      · have he : e = 1 := by linarith
        rw [he]
        norm_num
      · exact absurd h hv1
  exact eigh_groundstate_min 2 2 wH wge wgs wH wgs ⟨hpair, hmin⟩ ⟨0, hpair, hmin⟩

/-- C4: in the pytorch notebook the quantity minimized at every one of the
100 optimization steps is the negated normalized squared overlap with the
dense target state, loss = -(mps|target)^2 / (mps|mps), computed without
complex conjugation, and each step applies exactly the sequence zero_grad,
backward, step of the external Adam optimizer over the MPS tensors. -/
theorem torch_loop_minimizes_neg_normalized_overlap {A : Type} {d : ℕ}
    (view : A → (Fin d → ℚ)) (tgt : Fin d → ℚ) (zeroGrad : A → A)
    (backward : ℚ → A → A) (stepAdam : A → A) (a0 : A) :
    optimLoop view tgt zeroGrad backward stepAdam a0 =
      (optimStep view tgt zeroGrad backward stepAdam)^[100] a0 ∧
    (∀ a : A, optimStep view tgt zeroGrad backward stepAdam a =
      stepAdam (backward (nbLoss (view a) tgt) (zeroGrad a))) ∧
    (∀ psi : Fin d → ℚ,
      nbLoss psi tgt = -(∑ i, psi i * tgt i) ^ 2 / ∑ i, psi i * psi i) := by
  refine ⟨?_, fun a => rfl, fun psi => rfl⟩
  unfold optimLoop
  rw [foldl_const_iterate]
  simp [List.length_range']

/-- C6 counterexample: in ex_2d.ipynb the phases do not follow the stated
global order import-build-solve-consume-output -- the ground energy is
displayed (output) before the magnetization operators are built and the
magnetization plot (output) comes before the reduced-density-matrix
computations (consume). -/
theorem ex2d_not_stated_order : ¬ statedOrder ex2dCells := by
  show ¬ nondecreasing (phaseSeq ex2dCells) = true
  decide

/-- C6 (amended): in both notebooks every cell reads only names written by
earlier cells (so no step uses a value produced by a later step), the
library-importing cell comes first, and every solver call comes at or after a
cell building its input; printing/plotting is interleaved with later
computations rather than all coming last. -/
theorem notebooks_dataflow_order :
    noUseBeforeDef ex2dCells = true ∧ noUseBeforeDef torchCells = true ∧
    libImportFirst ex2dCells = true ∧ libImportFirst torchCells = true ∧
    solveAfterBuild ex2dCells = true ∧ solveAfterBuild torchCells = true := by
  exact ⟨by decide, by decide, by decide, by decide, by decide, by decide⟩
